import Mathlib

/-!
Shallow embedding of the resource subscription registry
(`fastmcp/server/resources/subscriptions.py`, class `ResourceSubscriptionManager`).

The Python class keeps `self._subscriptions : dict[str, set[ServerSession]]`,
guarded by a single asyncio lock; every public method runs its map accesses
inside one critical section, so each method is embedded as one atomic function
on the registry state.  A Python dict preserves insertion order and has unique
keys, so the state is modelled as an insertion-ordered association list from
canonical URI strings to finite session sets; session handles are opaque
identities, modelled as naturals.  The two fallible steps of
`notify_subscribers` are modelled by explicit capabilities: the external
`AnyUrl(uri_str)` validation at the notification construction site (an
abstract URL-validity predicate; its failure is unguarded and propagates),
and each session's `send_notification` (an `Except`-valued send capability,
wrapped in `contextlib.suppress(Exception)`).
-/

namespace Subscriptions

/-- Session handles: opaque identities supporting equality and hashing. -/
abbrev Session := Nat

/-- A URI argument, `uri: str | AnyUrl` in the source: either a plain string
or a richer URL value carrying its canonical textual form. -/
inductive Uri where
  | plain (s : String)
  | anyUrl (canonical : String)
deriving DecidableEq

/-- Python `str(uri)`: the canonical string of a URI argument. -/
def Uri.str : Uri → String
  | .plain s => s
  | .anyUrl c => c

/-- The state `self._subscriptions : dict[str, set[ServerSession]]`, as an
insertion-ordered association list (Python dicts preserve insertion order
and have unique keys). -/
abbrev Registry := List (String × Finset Session)

/-- Python `uri_str in self._subscriptions`. -/
def hasKey (R : Registry) (us : String) : Bool :=
  (R.find? (fun p => p.1 == us)).isSome

/-- Python `self._subscriptions.get(uri_str, set())`. -/
def getD (R : Registry) (us : String) : Finset Session :=
  ((R.find? (fun p => p.1 == us)).map Prod.snd).getD ∅

/-- In-place mutation of the set object stored at a key
(Python `self._subscriptions[uri_str].add(...)` / `.discard(...)`):
the entry keeps its position, its value is transformed. -/
def updVal (R : Registry) (us : String) (f : Finset Session → Finset Session) : Registry :=
  R.map (fun p => (p.1, if p.1 == us then f p.2 else p.2))

/-- Python `del self._subscriptions[uri_str]`: removes the (unique) entry
with that key. -/
def delKey (R : Registry) (us : String) : Registry :=
  R.eraseP (fun p => p.1 == us)

/-- Method `subscribe(uri, session)`:
`uri_str = str(uri)`; if the key is absent, bind it to a fresh empty set
(appended at the end, Python dict insertion order); then add the session
to the set at the key. -/
def subscribe (R : Registry) (u : Uri) (s : Session) : Registry :=
  let us := u.str
  let R1 := if hasKey R us then R else R ++ [(us, (∅ : Finset Session))]
  updVal R1 us (fun t => insert s t)

/-- Method `unsubscribe(uri, session)`:
`uri_str = str(uri)`; if the key is present, discard the session from its
set, then delete the key if the set became empty. -/
def unsubscribe (R : Registry) (u : Uri) (s : Session) : Registry :=
  let us := u.str
  if hasKey R us then
    let R1 := updVal R us (fun t => t.erase s)
    if getD R1 us = ∅ then delKey R1 us else R1
  else R

/-- Method `cleanup_on_disconnect(session)`:
first pass discards the session from every set that contains it, collecting
the URIs whose set became empty; second pass deletes those keys. -/
def cleanup_on_disconnect (R : Registry) (s : Session) : Registry :=
  let cleaned := R.map (fun p => (p.1, if s ∈ p.2 then p.2.erase s else p.2))
  let urisToClean := R.filterMap (fun p =>
    if s ∈ p.2 ∧ p.2.erase s = ∅ then some p.1 else none)
  urisToClean.foldl (fun acc us => delKey acc us) cleaned

/-- Method `get_subscriptions_count()`: total number of (uri, session) pairs. -/
def get_subscriptions_count (R : Registry) : Nat :=
  (R.map (fun p => p.2.card)).sum

/-- Method `is_subscribed(uri, session)`:
`session in self._subscriptions.get(str(uri), set())`. -/
def is_subscribed (R : Registry) (u : Uri) (s : Session) : Bool :=
  decide (s ∈ getD R u.str)

/-- Python `contextlib.suppress(Exception)` around one statement: any raised
exception is swallowed, execution continues normally. -/
def suppress (m : Except String Unit) : Except String Unit :=
  match m with
  | Except.ok _ => Except.ok ()
  | Except.error _ => Except.ok ()

/-- Insertion of a session into a list, keeping ascending order. -/
def insertSorted (a : Session) : List Session → List Session
  | [] => [a]
  | c :: t => if a ≤ c then a :: c :: t else c :: insertSorted a t

theorem insertSorted_comm (a b : Session) (l : List Session) :
    insertSorted a (insertSorted b l) = insertSorted b (insertSorted a l) := by
  induction l with
  | nil =>
    simp only [insertSorted]
    rcases Nat.lt_trichotomy a b with h | h | h
    · simp [Nat.le_of_lt h, Nat.not_le.mpr h]
    · simp [h]
    · simp [Nat.le_of_lt h, Nat.not_le.mpr h]
  | cons c t ih =>
    by_cases hbc : b ≤ c <;> by_cases hac : a ≤ c
    · rcases Nat.lt_trichotomy a b with h | h | h
      · simp [insertSorted, hbc, hac, Nat.le_of_lt h, Nat.not_le.mpr h]
      · simp [insertSorted, hbc, hac, h]
      · simp [insertSorted, hbc, hac, Nat.le_of_lt h, Nat.not_le.mpr h]
    · have hba : b < a := Nat.lt_of_le_of_lt hbc (Nat.not_le.mp hac)
      simp [insertSorted, hbc, hac, Nat.le_of_lt hba, Nat.not_le.mpr hba]
    · have hab : a < b := Nat.lt_of_le_of_lt hac (Nat.not_le.mp hbc)
      simp [insertSorted, hbc, hac, Nat.le_of_lt hab, Nat.not_le.mpr hab]
    · simp [insertSorted, hbc, hac, ih]

instance : LeftCommutative insertSorted := ⟨insertSorted_comm⟩

/-- Python `sessions = list(self._subscriptions.get(uri_str, set()))`: the
snapshot of the subscriber set taken under the lock, listed in a fixed
order (Python set iteration order is arbitrary; we determinize by sorting). -/
def snapshot (S : Finset Session) : List Session :=
  Multiset.foldr insertSorted [] S.val

/-- The external `pydantic.AnyUrl(uri_str)` constructor called at the
notification construction site (the line building
`ResourceUpdatedNotificationParams(uri=AnyUrl(uri_str))`): it validates the
string against the external URL grammar, abstracted here as the capability
`isUrl` (the registry itself performs no validation), and raises a
`ValidationError` when validation fails.  This call is NOT inside the
`suppress` block, so its exception propagates to the caller. -/
def mkAnyUrl (isUrl : String → Bool) (s : String) : Except String String :=
  if isUrl s then Except.ok s else Except.error "ValidationError"

/-- Fan-out loop of `notify_subscribers`, in exception-propagation
semantics: each delivery attempt runs under `suppress`; the ok-value records
the sessions to which delivery was attempted, in order; an exception that
escaped the suppressed region would abort the loop and propagate (the
`Except.error` branch, dead because `suppress` never errors). -/
def sendLoopE (send : Session → Except String Unit) : List Session → Except String (List Session)
  | [] => Except.ok []
  | t :: rest =>
    match suppress (send t) with
    | Except.ok _ => (sendLoopE send rest).map (fun l => t :: l)
    | Except.error e => Except.error e

/-- Normal outcome of one `notify_subscribers` call: the URI carried by the
constructed notification object, if one was constructed, and the list of
sessions to which delivery was attempted. -/
structure NotifyResult where
  built : Option String
  attempts : List Session
deriving DecidableEq

/-- Method `notify_subscribers(uri)`:
`uri_str = str(uri)`; snapshot the subscriber set under the lock; if the
snapshot is empty return at once (no notification object is constructed);
otherwise construct the notification — whose unguarded `AnyUrl(uri_str)`
validation may raise, before any delivery attempt — and then attempt
delivery to every snapshotted session, each send wrapped in `suppress`.
The method never assigns to `self._subscriptions`, so the registry
component of the result is the input state on every path, including the
raising one; the second component is the outcome: the normal result, or
the exception that propagated to the caller. -/
def notify_subscribers (isUrl : String → Bool) (send : Session → Except String Unit)
    (R : Registry) (u : Uri) : Registry × Except String NotifyResult :=
  let us := u.str
  let sessions := snapshot (getD R us)
  if sessions.isEmpty then (R, Except.ok { built := none, attempts := [] })
  else
    (R, (mkAnyUrl isUrl us).bind (fun url =>
      (sendLoopE send sessions).map (fun att => { built := some url, attempts := att })))

/-- Sessions to which a delivery attempt was made during one call, read off
the outcome: a raise during notification construction happens before the
loop, so an error outcome means zero delivery attempts. -/
def attemptsOf (r : Except String NotifyResult) : List Session :=
  match r with
  | Except.ok nr => nr.attempts
  | Except.error _ => []

/-- One public mutating operation of the registry. -/
inductive Op where
  | sub (u : Uri) (s : Session)
  | unsub (u : Uri) (s : Session)
  | cleanup (s : Session)

/-- Apply one operation to a registry state. -/
def applyOp (R : Registry) : Op → Registry
  | .sub u s => subscribe R u s
  | .unsub u s => unsubscribe R u s
  | .cleanup s => cleanup_on_disconnect R s

/-- Run a sequence of operations from the initially empty registry
(`self._subscriptions = {}` in `__init__`). -/
def run (ops : List Op) : Registry := ops.foldl applyOp []

/-- Well-formedness of a dict state: keys are unique.  Every Python dict
satisfies this by construction. -/
def keysNodup (R : Registry) : Prop := (R.map Prod.fst).Nodup

/-- The no-dangling-keys invariant: no key is bound to an empty set. -/
def noEmpty (R : Registry) : Prop := ∀ p ∈ R, p.2 ≠ (∅ : Finset Session)

/-! Basic facts about the snapshot and the fan-out loop. -/

theorem insertSorted_perm (a : Session) (l : List Session) :
    List.Perm (insertSorted a l) (a :: l) := by
  induction l with
  | nil => simp [insertSorted]
  | cons c t ih =>
    by_cases h : a ≤ c
    · simp [insertSorted, h]
    · simp only [insertSorted, h, if_false]
      exact (ih.cons c).trans (List.Perm.swap a c t)

theorem snapshot_coe (S : Finset Session) :
    ((snapshot S : List Session) : Multiset Session) = S.val := by
  show ((Multiset.foldr insertSorted [] S.val : List Session) : Multiset Session) = S.val
  induction S.val using Multiset.induction_on with
  | empty => rfl
  | cons a s ih =>
    rw [Multiset.foldr_cons]
    calc ((insertSorted a (Multiset.foldr insertSorted [] s) : List Session) : Multiset Session)
        = ((a :: Multiset.foldr insertSorted [] s : List Session) : Multiset Session) :=
          Quot.sound (insertSorted_perm a _)
      _ = a ::ₘ s := by rw [← Multiset.cons_coe, ih]

theorem mem_snapshot {t : Session} {S : Finset Session} :
    t ∈ snapshot S ↔ t ∈ S := by
  rw [← Multiset.mem_coe, snapshot_coe]; rfl

theorem snapshot_nodup (S : Finset Session) : (snapshot S).Nodup := by
  rw [← Multiset.coe_nodup, snapshot_coe]; exact S.nodup

theorem length_snapshot (S : Finset Session) : (snapshot S).length = S.card := by
  rw [← Multiset.coe_card, snapshot_coe]; rfl

theorem snapshot_eq_nil_iff {S : Finset Session} : snapshot S = [] ↔ S = ∅ := by
  constructor
  · intro h
    have := snapshot_coe S
    rw [h] at this
    exact Finset.val_eq_zero.mp this.symm
  · intro h; subst h; rfl

theorem sendLoopE_eq (send : Session → Except String Unit) (l : List Session) :
    sendLoopE send l = Except.ok l := by
  induction l with
  | nil => rfl
  | cons t rest ih =>
    have hs : suppress (send t) = Except.ok () := by
      cases send t <;> rfl
    simp [sendLoopE, hs, ih, Except.map]

/-! Facts about lookup, in-place update and key deletion in the
association-list model of the dict. -/

theorem find?_updVal_ne (R : Registry) (us v : String)
    (f : Finset Session → Finset Session) (h : v ≠ us) :
    (updVal R us f).find? (fun p => p.1 == v) = R.find? (fun p => p.1 == v) := by
  induction R with
  | nil => rfl
  | cons p t ih =>
    rcases hb : (p.1 == v) with _ | _
    · rw [updVal, List.map_cons, List.find?_cons_of_neg _ (by simp_all),
        List.find?_cons_of_neg _ (by simp_all)]
      exact ih
    · have hpv : p.1 = v := by simpa using hb
      have hpus : (p.1 == us) = false := by
        simp only [beq_eq_false_iff_ne, ne_eq, hpv]
        exact h
      rw [updVal, List.map_cons, List.find?_cons_of_pos _ (by simpa using hb),
        List.find?_cons_of_pos _ (by simpa using hb), hpus]
      rfl

theorem find?_updVal_self (R : Registry) (us : String)
    (f : Finset Session → Finset Session) :
    (updVal R us f).find? (fun p => p.1 == us)
      = (R.find? (fun p => p.1 == us)).map (fun p => (p.1, f p.2)) := by
  induction R with
  | nil => rfl
  | cons p t ih =>
    rcases hb : (p.1 == us) with _ | _
    · rw [updVal, List.map_cons, List.find?_cons_of_neg _ (by simp_all),
        List.find?_cons_of_neg _ (by simp_all)]
      exact ih
    · rw [updVal, List.map_cons, List.find?_cons_of_pos _ (by simpa using hb),
        List.find?_cons_of_pos _ (by simpa using hb), hb]
      rfl

theorem find?_delKey_ne (R : Registry) (us v : String) (h : v ≠ us) :
    (delKey R us).find? (fun p => p.1 == v) = R.find? (fun p => p.1 == v) := by
  induction R with
  | nil => rfl
  | cons p t ih =>
    rcases hp : (p.1 == us) with _ | _
    · rw [delKey, List.eraseP_cons_of_neg (by simp_all)]
      rcases hb : (p.1 == v) with _ | _
      · rw [List.find?_cons_of_neg _ (by simp_all), List.find?_cons_of_neg _ (by simp_all)]
        exact ih
      · rw [List.find?_cons_of_pos _ (by simpa using hb),
          List.find?_cons_of_pos _ (by simpa using hb)]
    · have hpus : p.1 = us := by simpa using hp
      have hv : (p.1 == v) = false := by
        simp only [beq_eq_false_iff_ne, ne_eq, hpus]
        exact fun hc => h hc.symm
      rw [delKey, List.eraseP_cons_of_pos (by simpa using hp),
        List.find?_cons_of_neg _ (by simp [hv])]

theorem keys_updVal (R : Registry) (us : String) (f : Finset Session → Finset Session) :
    (updVal R us f).map Prod.fst = R.map Prod.fst := by
  rw [updVal, List.map_map]
  rfl

theorem hasKey_iff {R : Registry} {us : String} :
    hasKey R us = true ↔ us ∈ R.map Prod.fst := by
  simp only [hasKey, List.find?_isSome, List.mem_map]
  constructor
  · rintro ⟨p, hp, he⟩
    exact ⟨p, hp, by simpa using he⟩
  · rintro ⟨p, hp, he⟩
    exact ⟨p, hp, by simpa using he⟩

theorem updVal_updVal (R : Registry) (us : String)
    (f g : Finset Session → Finset Session) :
    updVal (updVal R us f) us g = updVal R us (fun t => g (f t)) := by
  simp only [updVal, List.map_map]
  apply List.map_congr_left
  intro p _
  simp only [Function.comp]
  rcases hb : (p.1 == us) with _ | _ <;> simp [hb]

theorem updVal_congr (R : Registry) (us : String)
    (f : Finset Session → Finset Session)
    (h : ∀ p ∈ R, p.1 = us → f p.2 = p.2) :
    updVal R us f = R := by
  conv_rhs => rw [← List.map_id R]
  apply List.map_congr_left
  intro p hp
  rcases hb : (p.1 == us) with _ | _
  · simp [hb]
  · simp [hb, h p hp (by simpa using hb)]

theorem getD_eq_empty_of_not_hasKey {R : Registry} {us : String}
    (h : hasKey R us = false) : getD R us = ∅ := by
  unfold hasKey at h
  cases hf : R.find? (fun p => p.1 == us) with
  | none => simp [getD, hf]
  | some p => rw [hf] at h; simp at h

theorem find?_eq_none_iff {R : Registry} {us : String} :
    R.find? (fun p => p.1 == us) = none ↔ us ∉ R.map Prod.fst := by
  rw [← Option.not_isSome_iff_eq_none]
  constructor
  · intro h hmem
    exact h (hasKey_iff.mpr hmem)
  · intro h hs
    exact h (hasKey_iff.mp hs)

theorem getD_updVal_ne {R : Registry} {us v : String}
    {f : Finset Session → Finset Session} (h : v ≠ us) :
    getD (updVal R us f) v = getD R v := by
  rw [getD, getD, find?_updVal_ne R us v f h]

theorem getD_updVal_self {R : Registry} {us : String}
    {f : Finset Session → Finset Session} (h : hasKey R us = true) :
    getD (updVal R us f) us = f (getD R us) := by
  rw [getD, getD, find?_updVal_self]
  unfold hasKey at h
  cases hf : R.find? (fun p => p.1 == us) with
  | none => rw [hf] at h; simp at h
  | some p => simp [hf]

theorem getD_delKey_ne {R : Registry} {us v : String} (h : v ≠ us) :
    getD (delKey R us) v = getD R v := by
  rw [getD, getD, find?_delKey_ne R us v h]

theorem hasKey_updVal (R : Registry) (us v : String)
    (f : Finset Session → Finset Session) :
    hasKey (updVal R us f) v = hasKey R v := by
  by_cases h : v = us
  · subst h
    unfold hasKey
    rw [find?_updVal_self]
    cases R.find? (fun p => p.1 == v) <;> rfl
  · unfold hasKey
    rw [find?_updVal_ne R us v f h]

theorem find?_delKey_self_none {R : Registry} {us : String} (h : keysNodup R) :
    (delKey R us).find? (fun p => p.1 == us) = none := by
  induction R with
  | nil => rfl
  | cons p t ih =>
    have hnd : keysNodup t := (List.nodup_cons.mp h).2
    rcases hp : (p.1 == us) with _ | _
    · rw [delKey, List.eraseP_cons_of_neg (by simp_all),
        List.find?_cons_of_neg _ (by simp_all)]
      exact ih hnd
    · rw [delKey, List.eraseP_cons_of_pos (by simpa using hp)]
      apply find?_eq_none_iff.mpr
      have hpf : p.1 ∉ t.map Prod.fst := (List.nodup_cons.mp h).1
      rw [show us = p.1 from (by simpa using hp : p.1 = us).symm]
      exact hpf

/-! Characterizations of `subscribe` and `unsubscribe` at the level of
key lookup. -/

theorem find?_none_of_not_hasKey {R : Registry} {us : String}
    (h : hasKey R us = false) : R.find? (fun p => p.1 == us) = none := by
  unfold hasKey at h
  exact Option.not_isSome_iff_eq_none.mp (by simp [h])

theorem getD_subscribe_self (R : Registry) (u : Uri) (s : Session) :
    getD (subscribe R u s) u.str = insert s (getD R u.str) := by
  unfold subscribe
  cases hk : hasKey R u.str with
  | true =>
    simp only [hk, if_true]
    exact getD_updVal_self hk
  | false =>
    simp only [hk, Bool.false_eq_true, if_false]
    have hfn := find?_none_of_not_hasKey hk
    have hk2 : hasKey (R ++ [(u.str, (∅ : Finset Session))]) u.str = true := by
      unfold hasKey
      rw [List.find?_append, hfn]
      simp
    rw [getD_updVal_self hk2]
    have hget : getD (R ++ [(u.str, (∅ : Finset Session))]) u.str = ∅ := by
      rw [getD, List.find?_append, hfn]
      simp
    rw [hget, getD_eq_empty_of_not_hasKey hk]

theorem getD_subscribe_ne {R : Registry} {u : Uri} {s : Session} {v : String}
    (h : v ≠ u.str) :
    getD (subscribe R u s) v = getD R v := by
  unfold subscribe
  cases hk : hasKey R u.str with
  | true =>
    simp only [hk, if_true]
    exact getD_updVal_ne h
  | false =>
    simp only [hk, Bool.false_eq_true, if_false]
    rw [getD_updVal_ne h, getD, List.find?_append]
    have hne : (u.str == v) = false := beq_eq_false_iff_ne.mpr (Ne.symm h)
    have hone : List.find? (fun p => p.1 == v) [(u.str, (∅ : Finset Session))] = none := by
      simp [List.find?_cons, hne]
    rw [hone, Option.or_none, ← getD]

theorem keys_subscribe (R : Registry) (u : Uri) (s : Session) :
    (subscribe R u s).map Prod.fst
      = if hasKey R u.str then R.map Prod.fst else R.map Prod.fst ++ [u.str] := by
  unfold subscribe
  cases hk : hasKey R u.str with
  | true => simp only [hk, if_true]; exact keys_updVal _ _ _
  | false =>
    simp only [hk, Bool.false_eq_true, if_false]
    rw [keys_updVal, List.map_append]
    rfl

theorem hasKey_subscribe_self (R : Registry) (u : Uri) (s : Session) :
    hasKey (subscribe R u s) u.str = true := by
  rw [hasKey_iff, keys_subscribe]
  cases hk : hasKey R u.str with
  | true => simp only [if_true]; exact hasKey_iff.mp hk
  | false => simp

theorem getD_unsubscribe_ne {R : Registry} {u : Uri} {s : Session} {v : String}
    (h : v ≠ u.str) :
    getD (unsubscribe R u s) v = getD R v := by
  unfold unsubscribe
  cases hk : hasKey R u.str with
  | true =>
    simp only [hk, if_true]
    cases he : decide (getD (updVal R u.str (fun t => t.erase s)) u.str = ∅) with
    | true =>
      simp only [of_decide_eq_true he, if_true]
      rw [getD_delKey_ne h, getD_updVal_ne h]
    | false =>
      simp only [of_decide_eq_false he, if_false]
      exact getD_updVal_ne h
  | false => simp only [hk, Bool.false_eq_true, if_false]

/-! Facts about `cleanup_on_disconnect`: the deferred key deletions are
equivalent to a filter when keys are unique, the result is a sublist of the
first-pass state, and the disconnected session survives nowhere. -/

theorem find?_eq_of_mem_of_nodup {R : Registry} {p : String × Finset Session}
    {us : String} (h : keysNodup R) (hp : p ∈ R) (hk : p.1 = us) :
    R.find? (fun q => q.1 == us) = some p := by
  induction R with
  | nil => cases hp
  | cons q t ih =>
    rcases hq : (q.1 == us) with _ | _
    · rw [List.find?_cons_of_neg _ (by simp_all)]
      rcases List.mem_cons.mp hp with he | ht
      · subst he; simp [hk] at hq
      · exact ih (List.nodup_cons.mp h).2 ht
    · rw [List.find?_cons_of_pos _ (by simpa using hq)]
      rcases List.mem_cons.mp hp with he | ht
      · rw [he]
      · exfalso
        have hq1 : q.1 = us := by simpa using hq
        have : q.1 ∈ t.map Prod.fst := by
          rw [hq1, ← hk]
          exact List.mem_map_of_mem Prod.fst ht
        exact (List.nodup_cons.mp h).1 this

theorem delKey_eq_filter {L : Registry} {u : String} (h : keysNodup L) :
    delKey L u = L.filter (fun p => !(p.1 == u)) := by
  induction L with
  | nil => rfl
  | cons p t ih =>
    have hnd : keysNodup t := (List.nodup_cons.mp h).2
    rcases hp : (p.1 == u) with _ | _
    · rw [delKey, List.eraseP_cons_of_neg (by simp_all), List.filter_cons_of_pos (by simp [hp])]
      rw [delKey] at ih
      rw [ih hnd]
    · rw [delKey, List.eraseP_cons_of_pos (by simpa using hp),
        List.filter_cons_of_neg (by simp [hp])]
      have hp1 : p.1 = u := by simpa using hp
      have hnomem : ∀ q ∈ t, (q.1 == u) = false := by
        intro q hq
        have : q.1 ≠ p.1 := by
          intro hc
          exact (List.nodup_cons.mp h).1 (hc ▸ List.mem_map_of_mem Prod.fst hq)
        simp [hp1 ▸ this]
      exact (List.filter_eq_self.mpr (fun q hq => by simp [hnomem q hq])).symm

theorem keysNodup_filter {L : Registry} (q : String × Finset Session → Bool)
    (h : keysNodup L) : keysNodup (L.filter q) :=
  ((List.filter_sublist L).map Prod.fst).nodup h

theorem foldl_delKey_eq_filter {L : Registry} (h : keysNodup L) (us : List String) :
    us.foldl (fun acc u => delKey acc u) L
      = L.filter (fun p => decide (p.1 ∉ us)) := by
  induction us generalizing L with
  | nil => simp
  | cons u rest ih =>
    rw [List.foldl_cons, delKey_eq_filter h,
      ih (keysNodup_filter _ h), List.filter_filter]
    apply List.filter_congr
    intro p _
    by_cases h1 : p.1 = u <;> by_cases h2 : p.1 ∈ rest <;> simp [h1, h2]

theorem foldl_delKey_sublist (us : List String) (L : Registry) :
    (us.foldl (fun acc u => delKey acc u) L).Sublist L := by
  induction us generalizing L with
  | nil => exact List.Sublist.refl L
  | cons u rest ih =>
    rw [List.foldl_cons]
    exact (ih (delKey L u)).trans (List.eraseP_sublist L)

theorem keys_cleaned (R : Registry) (s : Session) :
    (R.map (fun p => (p.1, if s ∈ p.2 then p.2.erase s else p.2))).map Prod.fst
      = R.map Prod.fst := by
  rw [List.map_map]; rfl

theorem not_mem_cleaned {R : Registry} {s : Session}
    {p : String × Finset Session}
    (hp : p ∈ R.map (fun p => (p.1, if s ∈ p.2 then p.2.erase s else p.2))) :
    s ∉ p.2 := by
  rcases List.mem_map.mp hp with ⟨q, _, he⟩
  by_cases hm : s ∈ q.2
  · rw [← he]; simp [hm, Finset.not_mem_erase]
  · rw [← he]; simp [hm]

theorem cleanup_sublist (R : Registry) (s : Session) :
    (cleanup_on_disconnect R s).Sublist
      (R.map (fun p => (p.1, if s ∈ p.2 then p.2.erase s else p.2))) :=
  foldl_delKey_sublist _ _

theorem not_mem_sessions_cleanup {R : Registry} {s : Session}
    {p : String × Finset Session} (hp : p ∈ cleanup_on_disconnect R s) :
    s ∉ p.2 :=
  not_mem_cleaned ((cleanup_sublist R s).subset hp)

theorem getD_cleanup_not_mem (R : Registry) (s : Session) (us : String) :
    s ∉ getD (cleanup_on_disconnect R s) us := by
  intro hmem
  simp only [getD] at hmem
  cases hf : (cleanup_on_disconnect R s).find? (fun p => p.1 == us) with
  | none => rw [hf] at hmem; simp at hmem
  | some p =>
    rw [hf] at hmem
    exact not_mem_sessions_cleanup (List.mem_of_find?_eq_some hf) (by simpa using hmem)

theorem cleanup_noop {R : Registry} {s : Session}
    (h : ∀ p ∈ R, s ∉ p.2) : cleanup_on_disconnect R s = R := by
  unfold cleanup_on_disconnect
  have hclean : R.map (fun p => (p.1, if s ∈ p.2 then p.2.erase s else p.2)) = R := by
    conv_rhs => rw [← List.map_id R]
    apply List.map_congr_left
    intro p hp
    simp [h p hp]
  have htc : R.filterMap (fun p =>
      if s ∈ p.2 ∧ p.2.erase s = ∅ then some p.1 else none) = [] := by
    apply List.filterMap_eq_nil_iff.mpr
    intro p hp
    simp [h p hp]
  rw [hclean, htc]
  rfl

/-! Preservation of the dict well-formedness (unique keys) and of the
no-empty-set invariant by each mutating operation. -/

theorem getD_eq_of_find? {R : Registry} {us : String} {p : String × Finset Session}
    (hf : R.find? (fun q => q.1 == us) = some p) : getD R us = p.2 := by
  simp [getD, hf]

theorem keysNodup_subscribe {R : Registry} {u : Uri} {s : Session}
    (h : keysNodup R) : keysNodup (subscribe R u s) := by
  rw [keysNodup, keys_subscribe]
  cases hk : hasKey R u.str with
  | true => simpa using h
  | false =>
    have hmem : u.str ∉ R.map Prod.fst := fun hc => by
      rw [hasKey_iff.mpr hc] at hk; cases hk
    simp [List.nodup_append, hmem]
    exact h

theorem noEmpty_subscribe {R : Registry} {u : Uri} {s : Session}
    (h : noEmpty R) : noEmpty (subscribe R u s) := by
  intro p hp
  unfold subscribe updVal at hp
  rcases List.mem_map.mp hp with ⟨q, hq, he⟩
  rcases hc : (q.1 == u.str) with _ | _
  · rw [hc] at he
    simp only [Bool.false_eq_true, if_false] at he
    have hq2 : q.2 ≠ ∅ := by
      cases hk : hasKey R u.str with
      | true => rw [hk] at hq; simp only [if_true] at hq; exact h q hq
      | false =>
        rw [hk] at hq
        simp only [Bool.false_eq_true, if_false] at hq
        rcases List.mem_append.mp hq with hq' | hq'
        · exact h q hq'
        · exfalso
          have : q = (u.str, (∅ : Finset Session)) := by simpa using hq'
          rw [this] at hc
          simp at hc
    rw [← he]
    exact hq2
  · rw [hc] at he
    simp only [if_true] at he
    rw [← he]
    exact Finset.insert_ne_empty s q.2

theorem keysNodup_unsubscribe {R : Registry} {u : Uri} {s : Session}
    (h : keysNodup R) : keysNodup (unsubscribe R u s) := by
  simp only [unsubscribe]
  by_cases hk : hasKey R u.str = true
  · rw [if_pos hk]
    have h1 : keysNodup (updVal R u.str (fun t => t.erase s)) := by
      rw [keysNodup, keys_updVal]; exact h
    by_cases he : getD (updVal R u.str (fun t => t.erase s)) u.str = ∅
    · rw [if_pos he]
      exact ((List.eraseP_sublist _).map Prod.fst).nodup h1
    · rw [if_neg he]
      exact h1
  · rw [if_neg hk]
    exact h

theorem noEmpty_unsubscribe {R : Registry} {u : Uri} {s : Session}
    (hn : keysNodup R) (h : noEmpty R) : noEmpty (unsubscribe R u s) := by
  simp only [unsubscribe]
  by_cases hk : hasKey R u.str = true
  swap
  · rw [if_neg hk]
    exact h
  · rw [if_pos hk]
    have h1 : keysNodup (updVal R u.str (fun t => t.erase s)) := by
      rw [keysNodup, keys_updVal]; exact hn
    have hmem : ∀ p ∈ updVal R u.str (fun t => t.erase s),
        p.1 ≠ u.str → p.2 ≠ (∅ : Finset Session) := by
      intro p hp hne
      rcases List.mem_map.mp hp with ⟨q, hq, he⟩
      have hq1 : q.1 ≠ u.str := by rw [← he] at hne; exact hne
      have hcq : (q.1 == u.str) = false := beq_eq_false_iff_ne.mpr hq1
      rw [← he, hcq]
      simpa using h q hq
    by_cases he : getD (updVal R u.str (fun t => t.erase s)) u.str = ∅
    · rw [if_pos he]
      intro p hp
      have hp1 : p ∈ updVal R u.str (fun t => t.erase s) :=
        (List.eraseP_sublist _).subset hp
      have hpne : p.1 ≠ u.str := by
        intro hc
        have hnone : (delKey (updVal R u.str fun t => t.erase s) u.str).find?
            (fun p => p.1 == u.str) = none := find?_delKey_self_none h1
        have hnk : u.str ∉ (delKey (updVal R u.str fun t => t.erase s) u.str).map Prod.fst :=
          find?_eq_none_iff.mp hnone
        have hin := List.mem_map_of_mem Prod.fst hp
        rw [hc] at hin
        exact hnk hin
      exact hmem p hp1 hpne
    · rw [if_neg he]
      intro p hp
      by_cases hpne : p.1 = u.str
      · have hf := find?_eq_of_mem_of_nodup h1 hp hpne
        rw [← getD_eq_of_find? hf]
        exact he
      · exact hmem p hp hpne

theorem keysNodup_cleanup {R : Registry} {s : Session}
    (h : keysNodup R) : keysNodup (cleanup_on_disconnect R s) := by
  have hsub := (cleanup_sublist R s).map Prod.fst
  rw [keys_cleaned] at hsub
  exact hsub.nodup h

theorem noEmpty_cleanup {R : Registry} {s : Session}
    (hn : keysNodup R) (h : noEmpty R) : noEmpty (cleanup_on_disconnect R s) := by
  have hcn : keysNodup (R.map (fun p => (p.1, if s ∈ p.2 then p.2.erase s else p.2))) := by
    rw [keysNodup, keys_cleaned]; exact hn
  intro p hp
  rw [cleanup_on_disconnect, foldl_delKey_eq_filter hcn] at hp
  rcases List.mem_filter.mp hp with ⟨hpc, hdec⟩
  have hnotclean : p.1 ∉ R.filterMap (fun q =>
      if s ∈ q.2 ∧ q.2.erase s = ∅ then some q.1 else none) := of_decide_eq_true hdec
  rcases List.mem_map.mp hpc with ⟨q, hq, he⟩
  by_cases hm : s ∈ q.2
  · intro hemp
    apply hnotclean
    apply List.mem_filterMap.mpr
    refine ⟨q, hq, ?_⟩
    have herase : q.2.erase s = ∅ := by
      rw [← he] at hemp
      simpa [hm] using hemp
    rw [← he]
    simp [hm, herase]
  · rw [← he]
    simpa [hm] using h q hq

/-- Invariant preservation along any run: the state reached from the empty
registry by any sequence of public mutating operations has unique keys and
binds no key to an empty set. -/
theorem inv_foldl (ops : List Op) :
    ∀ R : Registry, keysNodup R → noEmpty R →
      keysNodup (ops.foldl applyOp R) ∧ noEmpty (ops.foldl applyOp R) := by
  induction ops with
  | nil => exact fun R h1 h2 => ⟨h1, h2⟩
  | cons op rest ih =>
    intro R h1 h2
    rw [List.foldl_cons]
    apply ih
    · cases op with
      | sub u s => exact keysNodup_subscribe h1
      | unsub u s => exact keysNodup_unsubscribe h1
      | cleanup s => exact keysNodup_cleanup h1
    · cases op with
      | sub u s => exact noEmpty_subscribe h2
      | unsub u s => exact noEmpty_unsubscribe h1 h2
      | cleanup s => exact noEmpty_cleanup h1 h2

theorem inv_run (ops : List Op) :
    keysNodup (run ops) ∧ noEmpty (run ops) :=
  inv_foldl ops [] (by simp [keysNodup]) (by intro p hp; cases hp)

/-! Unfolding equations for the branches of `subscribe` and `unsubscribe`,
and a few remaining auxiliary facts. -/

theorem subscribe_of_hasKey {R : Registry} {u : Uri} {s : Session}
    (h : hasKey R u.str = true) :
    subscribe R u s = updVal R u.str (fun t => insert s t) := by
  simp only [subscribe]
  rw [if_pos h]

theorem unsubscribe_of_not_hasKey {R : Registry} {u : Uri} {s : Session}
    (h : hasKey R u.str = false) : unsubscribe R u s = R := by
  simp only [unsubscribe]
  rw [if_neg (by simp [h])]

theorem unsubscribe_of_hasKey {R : Registry} {u : Uri} {s : Session}
    (h : hasKey R u.str = true) :
    unsubscribe R u s
      = (if getD (updVal R u.str (fun t => t.erase s)) u.str = ∅
          then delKey (updVal R u.str (fun t => t.erase s)) u.str
          else updVal R u.str (fun t => t.erase s)) := by
  simp only [unsubscribe]
  rw [if_pos h]

theorem notify_fst (isUrl : String → Bool) (send : Session → Except String Unit)
    (R : Registry) (u : Uri) : (notify_subscribers isUrl send R u).1 = R := by
  simp only [notify_subscribers]
  split <;> rfl

theorem notify_empty (isUrl : String → Bool) (send : Session → Except String Unit)
    {R : Registry} {u : Uri} (hS : getD R u.str = ∅) :
    notify_subscribers isUrl send R u
      = (R, Except.ok { built := none, attempts := [] }) := by
  have hl : (snapshot (getD R u.str)).isEmpty = true := by rw [hS]; rfl
  simp only [notify_subscribers]
  rw [if_pos hl]

theorem notify_nonempty_valid (isUrl : String → Bool)
    (send : Session → Except String Unit) {R : Registry} {u : Uri}
    (hS : getD R u.str ≠ ∅) (hv : isUrl u.str = true) :
    notify_subscribers isUrl send R u
      = (R, Except.ok ⟨some u.str, snapshot (getD R u.str)⟩) := by
  have hl : ¬((snapshot (getD R u.str)).isEmpty = true) := by
    rw [List.isEmpty_iff]
    exact fun hc => hS (snapshot_eq_nil_iff.mp hc)
  have hurl : mkAnyUrl isUrl u.str = Except.ok u.str := by
    simp [mkAnyUrl, hv]
  simp only [notify_subscribers]
  rw [if_neg hl, hurl, sendLoopE_eq]
  rfl

theorem notify_nonempty_invalid (isUrl : String → Bool)
    (send : Session → Except String Unit) {R : Registry} {u : Uri}
    (hS : getD R u.str ≠ ∅) (hv : isUrl u.str = false) :
    notify_subscribers isUrl send R u = (R, Except.error "ValidationError") := by
  have hl : ¬((snapshot (getD R u.str)).isEmpty = true) := by
    rw [List.isEmpty_iff]
    exact fun hc => hS (snapshot_eq_nil_iff.mp hc)
  have hurl : mkAnyUrl isUrl u.str = Except.error "ValidationError" := by
    simp [mkAnyUrl, hv]
  simp only [notify_subscribers]
  rw [if_neg hl, hurl]
  rfl

theorem attemptsOf_notify_of_valid (isUrl : String → Bool)
    (send : Session → Except String Unit) (R : Registry) (u : Uri)
    (hv : isUrl u.str = true) :
    attemptsOf (notify_subscribers isUrl send R u).2 = snapshot (getD R u.str) := by
  by_cases hS : getD R u.str = ∅
  · rw [notify_empty isUrl send hS, hS]
    rfl
  · rw [notify_nonempty_valid isUrl send hS hv]
    rfl

theorem getD_ne_empty_of_hasKey {R : Registry} {us : String}
    (hne : noEmpty R) (hk : hasKey R us = true) : getD R us ≠ ∅ := by
  unfold hasKey at hk
  cases hf : R.find? (fun p => p.1 == us) with
  | none => rw [hf] at hk; cases hk
  | some p =>
    rw [getD_eq_of_find? hf]
    exact hne p (List.mem_of_find?_eq_some hf)

theorem updVal_eq_self_of_not_mem {R : Registry} {us : String}
    {f : Finset Session → Finset Session} (h : us ∉ R.map Prod.fst) :
    updVal R us f = R := by
  apply updVal_congr
  intro p hp hkey
  exact absurd (hkey ▸ List.mem_map_of_mem Prod.fst hp) h

theorem updVal_append (A B : Registry) (us : String)
    (f : Finset Session → Finset Session) :
    updVal (A ++ B) us f = updVal A us f ++ updVal B us f :=
  List.map_append _ A B

theorem getD_append_singleton {R : Registry} {us : String} {t : Finset Session}
    (h : R.find? (fun p => p.1 == us) = none) :
    getD (R ++ [(us, t)]) us = t := by
  rw [getD, List.find?_append, h]
  simp

theorem delKey_append_singleton {R : Registry} {us : String} {t : Finset Session}
    (h : us ∉ R.map Prod.fst) : delKey (R ++ [(us, t)]) us = R := by
  induction R with
  | nil => simp [delKey]
  | cons p l ih =>
    rw [List.map_cons, List.mem_cons] at h
    push_neg at h
    obtain ⟨h1, h2⟩ := h
    rw [List.cons_append, delKey,
      List.eraseP_cons_of_neg (by simp [beq_eq_false_iff_ne, Ne.symm h1])]
    rw [delKey] at ih
    rw [ih h2]

instance (R : Registry) : Decidable (keysNodup R) :=
  List.nodupDecidable _

instance (R : Registry) : Decidable (noEmpty R) :=
  List.decidableBAll _ R

/-! The claimed properties of the registry. -/

/-- C1: fan-out completeness, amended.  The claim fails as stated: the
unguarded `AnyUrl(uri_str)` construction raises for a non-URL string key
with subscribers, before any delivery attempt (see the counterexample).
Amended: for every registry state and URI whose canonical string passes the
external URL validation, `notify_subscribers` attempts exactly one delivery
to each subscribed session and none to any other session, with as many
attempts as there are subscribers, and returns the normal result; and for
every URI whatsoever, when the snapshotted set is empty the call returns
`(R, ok ⟨none, []⟩)`: no notification object is constructed and no delivery
is attempted. -/
theorem fanout_completeness (isUrl : String → Bool)
    (send : Session → Except String Unit) (R : Registry) (u : Uri) :
    (isUrl u.str = true →
      (∀ s : Session,
        (attemptsOf (notify_subscribers isUrl send R u).2).count s
          = if s ∈ getD R u.str then 1 else 0)
      ∧ (attemptsOf (notify_subscribers isUrl send R u).2).length
          = (getD R u.str).card
      ∧ (getD R u.str ≠ ∅ →
          (notify_subscribers isUrl send R u).2
            = Except.ok ⟨some u.str, snapshot (getD R u.str)⟩))
    ∧ (getD R u.str = ∅ →
        notify_subscribers isUrl send R u
          = (R, Except.ok { built := none, attempts := [] })) := by
  constructor
  · intro hv
    refine ⟨?_, ?_, ?_⟩
    · intro s
      rw [attemptsOf_notify_of_valid isUrl send R u hv]
      by_cases hm : s ∈ getD R u.str
      · rw [if_pos hm]
        exact List.count_eq_one_of_mem (snapshot_nodup _) (mem_snapshot.mpr hm)
      · rw [if_neg hm]
        exact List.count_eq_zero.mpr (fun hc => hm (mem_snapshot.mp hc))
    · rw [attemptsOf_notify_of_valid isUrl send R u hv, length_snapshot]
    · intro hS
      rw [notify_nonempty_valid isUrl send hS hv]
  · intro hS
    exact notify_empty isUrl send hS

/-- Counterexample to C1 as stated: at the reachable state binding the
non-URL string key "no-scheme" (`subscribe` stores any string without
validation) with exactly one subscriber, and a URL validator consistent
with pydantic on this input (a URL must contain a scheme separator, which
"no-scheme" lacks), `notify_subscribers` makes zero delivery attempts to
that subscriber — not the one attempt the claim asserts — and raises
`ValidationError`. -/
theorem fanout_completeness_counterexample :
    (1 : Session) ∈ getD [("no-scheme", ({1} : Finset Session))]
        (Uri.plain "no-scheme").str
    ∧ (attemptsOf (notify_subscribers (fun s : String => s.data.contains ':')
          (fun _ => Except.ok ()) [("no-scheme", ({1} : Finset Session))]
          (Uri.plain "no-scheme")).2).count 1 = 0
    ∧ (notify_subscribers (fun s : String => s.data.contains ':')
          (fun _ => Except.ok ()) [("no-scheme", ({1} : Finset Session))]
          (Uri.plain "no-scheme")).2 = Except.error "ValidationError" :=
  ⟨by decide, by decide, rfl⟩

theorem fanout_completeness_witness :
    ((fun s : String => s.data.contains ':') (Uri.plain "res://a").str = true)
    ∧ (attemptsOf (notify_subscribers (fun s : String => s.data.contains ':')
        (fun _ => Except.ok ())
        [("res://a", ({1, 2} : Finset Session))] (Uri.plain "res://a")).2).count 1 = 1
    ∧ getD ([] : Registry) "res://x" = ∅
    ∧ notify_subscribers (fun s : String => s.data.contains ':')
        (fun _ => Except.ok ()) ([] : Registry) (Uri.plain "res://x")
        = ([], Except.ok { built := none, attempts := [] }) := by
  refine ⟨by decide, ?_, by decide, ?_⟩
  · have h := ((fanout_completeness (fun s : String => s.data.contains ':')
      (fun _ => Except.ok ())
      [("res://a", ({1, 2} : Finset Session))] (Uri.plain "res://a")).1 (by decide)).1 1
    rw [h]
    decide
  · exact (fanout_completeness (fun s : String => s.data.contains ':')
      (fun _ => Except.ok ()) ([] : Registry) (Uri.plain "res://x")).2 (by decide)

/-- C3: fault isolation.  If the delivery attempt to some subscriber was
actually made during the call (it appears in the call's attempt list, which
entails the notification construction succeeded) and that subscriber's send
raised, then delivery was still attempted to every snapshotted subscriber
and `notify_subscribers` still returned normally, with the full attempt
list. -/
theorem fault_isolation (isUrl : String → Bool)
    (send : Session → Except String Unit) (R : Registry) (u : Uri)
    (s0 : Session) (msg : String)
    (hmem : s0 ∈ attemptsOf (notify_subscribers isUrl send R u).2)
    (hfail : send s0 = Except.error msg) :
    attemptsOf (notify_subscribers isUrl send R u).2 = snapshot (getD R u.str)
    ∧ (∀ t ∈ getD R u.str, t ∈ attemptsOf (notify_subscribers isUrl send R u).2)
    ∧ (notify_subscribers isUrl send R u).2
        = Except.ok ⟨some u.str, snapshot (getD R u.str)⟩ := by
  by_cases hS : getD R u.str = ∅
  · rw [notify_empty isUrl send hS] at hmem
    simp [attemptsOf] at hmem
  · by_cases hv : isUrl u.str = true
    · rw [notify_nonempty_valid isUrl send hS hv]
      refine ⟨rfl, ?_, rfl⟩
      intro t ht
      exact mem_snapshot.mpr ht
    · have hv2 : isUrl u.str = false := by simpa using hv
      rw [notify_nonempty_invalid isUrl send hS hv2] at hmem
      simp [attemptsOf] at hmem

theorem fault_isolation_witness :
    (1 : Session) ∈ attemptsOf (notify_subscribers (fun s : String => s.data.contains ':')
        (fun t : Session => if t = 1 then Except.error "boom" else Except.ok ())
        [("res://a", ({1, 2} : Finset Session))] (Uri.plain "res://a")).2
    ∧ (fun t : Session => if t = 1 then Except.error "boom" else Except.ok ()) 1
        = Except.error "boom"
    ∧ (2 : Session) ∈ attemptsOf (notify_subscribers (fun s : String => s.data.contains ':')
        (fun t : Session => if t = 1 then Except.error "boom" else Except.ok ())
        [("res://a", ({1, 2} : Finset Session))] (Uri.plain "res://a")).2 := by
  refine ⟨by decide, rfl, ?_⟩
  exact (fault_isolation (fun s : String => s.data.contains ':')
    (fun t : Session => if t = 1 then Except.error "boom" else Except.ok ())
    [("res://a", ({1, 2} : Finset Session))] (Uri.plain "res://a") 1 "boom"
    (by decide) rfl).2.1 2 (by decide)

/-- C4: which operations can raise, amended.  The claim fails as stated:
`notify_subscribers` raises the unguarded `AnyUrl` ValidationError for a
non-URL string key with at least one subscriber (see the counterexample).
Amended: `subscribe`, `unsubscribe`, `cleanup_on_disconnect`,
`get_subscriptions_count` and `is_subscribed` contain no fallible step and
are embedded as total functions; `notify_subscribers` returns normally
whenever the URI's canonical string passes the external URL validation,
and an exception escapes exactly when that validation fails and the
snapshot is non-empty; every send failure is confined to its own
suppressed delivery attempt. -/
theorem no_operation_raises (isUrl : String → Bool)
    (send : Session → Except String Unit) (R : Registry) (u : Uri) :
    (isUrl u.str = true →
      ∃ nr, (notify_subscribers isUrl send R u).2 = Except.ok nr)
    ∧ ((∃ e, (notify_subscribers isUrl send R u).2 = Except.error e)
        ↔ (isUrl u.str = false ∧ getD R u.str ≠ ∅)) := by
  constructor
  · intro hv
    by_cases hS : getD R u.str = ∅
    · exact ⟨{ built := none, attempts := [] }, by rw [notify_empty isUrl send hS]⟩
    · exact ⟨⟨some u.str, snapshot (getD R u.str)⟩,
        by rw [notify_nonempty_valid isUrl send hS hv]⟩
  · constructor
    · rintro ⟨e, he⟩
      by_cases hS : getD R u.str = ∅
      · rw [notify_empty isUrl send hS] at he
        simp at he
      · by_cases hv : isUrl u.str = true
        · rw [notify_nonempty_valid isUrl send hS hv] at he
          simp at he
        · exact ⟨by simpa using hv, hS⟩
    · rintro ⟨hv, hS⟩
      exact ⟨"ValidationError", by rw [notify_nonempty_invalid isUrl send hS hv]⟩

/-- Counterexample to C4 as stated: on the reachable state binding the
non-URL string key "no-scheme" with one subscriber, under a URL validator
consistent with pydantic on this input, `notify_subscribers` returns the
raised `ValidationError` to its caller. -/
theorem no_operation_raises_counterexample :
    (1 : Session) ∈ getD [("no-scheme", ({1} : Finset Session))]
        (Uri.plain "no-scheme").str
    ∧ (notify_subscribers (fun s : String => s.data.contains ':')
        (fun _ => Except.ok ()) [("no-scheme", ({1} : Finset Session))]
        (Uri.plain "no-scheme")).2 = Except.error "ValidationError" :=
  ⟨by decide, rfl⟩

theorem no_operation_raises_witness :
    ((fun s : String => s.data.contains ':') (Uri.plain "res://a").str = true)
    ∧ ∃ nr, (notify_subscribers (fun s : String => s.data.contains ':')
        (fun _ => Except.ok ()) [("res://a", ({1} : Finset Session))]
        (Uri.plain "res://a")).2 = Except.ok nr :=
  ⟨by decide, (no_operation_raises (fun s : String => s.data.contains ':')
      (fun _ => Except.ok ()) [("res://a", ({1} : Finset Session))]
      (Uri.plain "res://a")).1 (by decide)⟩

/-- C8: notify is effect-free on the registry.  For every URL validator and
every send capability (including ones that fail on some or all
subscribers), `notify_subscribers` returns the registry unchanged — also on
the path where the notification construction raises, which happens after
the lock is released with no map mutation; and `subscribe` never removes a
subscription (the subscriber set of every URI only grows), so only
`unsubscribe` and `cleanup_on_disconnect` remove subscriptions. -/
theorem notify_preserves_state (isUrl : String → Bool)
    (send : Session → Except String Unit)
    (R : Registry) (u u' : Uri) (s' : Session) (v : String) :
    (notify_subscribers isUrl send R u).1 = R
    ∧ getD R v ⊆ getD (subscribe R u' s') v := by
  refine ⟨notify_fst isUrl send R u, ?_⟩
  by_cases hv : v = u'.str
  · subst hv
    rw [getD_subscribe_self]
    exact Finset.subset_insert _ _
  · rw [getD_subscribe_ne hv]

/-- C7: isolation between resource identifiers.  For distinct canonical
identifiers, subscribing or unsubscribing at `u1` and notifying `u1` leave
the subscriber set of `u2` exactly unchanged. -/
theorem uri_isolation (isUrl : String → Bool)
    (send : Session → Except String Unit) (R : Registry)
    (u1 : Uri) (s : Session) (u2 : String) (h : u2 ≠ u1.str) :
    getD (subscribe R u1 s) u2 = getD R u2
    ∧ getD (unsubscribe R u1 s) u2 = getD R u2
    ∧ getD ((notify_subscribers isUrl send R u1).1) u2 = getD R u2 :=
  ⟨getD_subscribe_ne h, getD_unsubscribe_ne h, by rw [notify_fst]⟩

theorem uri_isolation_witness :
    ("res://b" : String) ≠ (Uri.plain "res://a").str
    ∧ getD (subscribe [("res://b", ({4} : Finset Session))] (Uri.plain "res://a") 7) "res://b"
        = getD [("res://b", ({4} : Finset Session))] "res://b"
    ∧ getD (unsubscribe [("res://b", ({4} : Finset Session))] (Uri.plain "res://a") 7) "res://b"
        = getD [("res://b", ({4} : Finset Session))] "res://b" := by
  have h := uri_isolation (fun _ => true) (fun _ => Except.ok ())
    [("res://b", ({4} : Finset Session))] (Uri.plain "res://a") 7 "res://b" (by decide)
  exact ⟨by decide, h.1, h.2.1⟩

/-- C9: canonicalization of URI inputs.  Every operation first converts its
URI argument to its canonical string, so two URI inputs with the same
canonical string (a plain string and a richer URL value) act identically
as keys in every operation. -/
theorem uri_canonicalization (isUrl : String → Bool)
    (send : Session → Except String Unit)
    (R : Registry) (u1 u2 : Uri) (s : Session) (h : u1.str = u2.str) :
    subscribe R u1 s = subscribe R u2 s
    ∧ unsubscribe R u1 s = unsubscribe R u2 s
    ∧ notify_subscribers isUrl send R u1 = notify_subscribers isUrl send R u2
    ∧ is_subscribed R u1 s = is_subscribed R u2 s := by
  refine ⟨?_, ?_, ?_, ?_⟩
  · simp only [subscribe, h]
  · simp only [unsubscribe, h]
  · simp only [notify_subscribers, h]
  · simp only [is_subscribed, h]

theorem uri_canonicalization_witness :
    (Uri.plain "res://a").str = (Uri.anyUrl "res://a").str
    ∧ subscribe [] (Uri.plain "res://a") 5 = subscribe [] (Uri.anyUrl "res://a") 5 :=
  ⟨rfl, (uri_canonicalization (fun _ => true) (fun _ => Except.ok ()) []
    (Uri.plain "res://a") (Uri.anyUrl "res://a") 5 rfl).1⟩

/-- C5: disconnect cleanup.  After `cleanup_on_disconnect(s)`, session `s`
is subscribed to no URI, regardless of how many subscriptions it held
before; and when `s` holds no subscription the call leaves the registry
exactly unchanged. -/
theorem disconnect_cleanup (R : Registry) (s : Session) :
    (∀ u : Uri, is_subscribed (cleanup_on_disconnect R s) u s = false)
    ∧ ((∀ p ∈ R, s ∉ p.2) → cleanup_on_disconnect R s = R) := by
  refine ⟨?_, cleanup_noop⟩
  intro u
  simp only [is_subscribed, decide_eq_false_iff_not]
  exact getD_cleanup_not_mem R s u.str

theorem disconnect_cleanup_witness :
    is_subscribed (cleanup_on_disconnect
        [("res://a", ({1, 2} : Finset Session)), ("res://b", ({1} : Finset Session))] 1)
      (Uri.plain "res://a") 1 = false
    ∧ (∀ p ∈ ([("res://a", ({2} : Finset Session))] : Registry), (1 : Session) ∉ p.2)
    ∧ cleanup_on_disconnect [("res://a", ({2} : Finset Session))] 1
        = [("res://a", ({2} : Finset Session))] :=
  ⟨(disconnect_cleanup
      [("res://a", ({1, 2} : Finset Session)), ("res://b", ({1} : Finset Session))] 1).1
      (Uri.plain "res://a"),
    by decide,
    (disconnect_cleanup [("res://a", ({2} : Finset Session))] 1).2 (by decide)⟩

/-- C2: no dangling keys.  Every state reachable from the empty registry by
subscribe, unsubscribe and cleanup operations binds no key to an empty
session set; consequently the number of entries equals the number of
distinct keys, and a key is present exactly when its subscriber set is
non-empty. -/
theorem no_dangling_keys (ops : List Op) :
    (∀ p ∈ run ops, p.2 ≠ (∅ : Finset Session))
    ∧ (run ops).length = ((run ops).map Prod.fst).toFinset.card
    ∧ (∀ us : String, hasKey (run ops) us = true ↔ getD (run ops) us ≠ ∅) := by
  obtain ⟨hnd, hne⟩ := inv_run ops
  refine ⟨hne, ?_, ?_⟩
  · rw [List.toFinset_card_of_nodup hnd, List.length_map]
  · intro us
    constructor
    · exact fun hk => getD_ne_empty_of_hasKey hne hk
    · intro hgd
      by_contra hk
      exact hgd (getD_eq_empty_of_not_hasKey (by simpa using hk))

theorem no_dangling_keys_witness :
    (("res://a", ({1} : Finset Session)) ∈ run
        [Op.sub (Uri.plain "res://a") 1, Op.sub (Uri.plain "res://b") 2,
          Op.unsub (Uri.plain "res://b") 2])
    ∧ (("res://a", ({1} : Finset Session)) : String × Finset Session).2 ≠ ∅ :=
  ⟨by decide, (no_dangling_keys
    [Op.sub (Uri.plain "res://a") 1, Op.sub (Uri.plain "res://b") 2,
      Op.unsub (Uri.plain "res://b") 2]).1 _ (by decide)⟩

/-- C6: idempotence.  On every dict state (keys are unique in a Python
dict), subscribing the same pair twice yields the same state as
subscribing once, and a second unsubscribe leaves the state after the
first unchanged. -/
theorem subscribe_unsubscribe_idempotent (R : Registry) (u : Uri)
    (s : Session) (hn : keysNodup R) :
    subscribe (subscribe R u s) u s = subscribe R u s
    ∧ unsubscribe (unsubscribe R u s) u s = unsubscribe R u s := by
  constructor
  · rw [subscribe_of_hasKey (hasKey_subscribe_self R u s)]
    simp only [subscribe]
    rw [updVal_updVal]
    simp only [Finset.insert_idem]
  · by_cases hk : hasKey R u.str = true
    · have h1 : keysNodup (updVal R u.str (fun t => t.erase s)) := by
        rw [keysNodup, keys_updVal]; exact hn
      rw [unsubscribe_of_hasKey hk]
      by_cases he : getD (updVal R u.str (fun t => t.erase s)) u.str = ∅
      · rw [if_pos he]
        have hkd : hasKey (delKey (updVal R u.str (fun t => t.erase s)) u.str) u.str
            = false := by
          unfold hasKey
          rw [find?_delKey_self_none h1]
          rfl
        rw [unsubscribe_of_not_hasKey hkd]
      · rw [if_neg he]
        have hk1 : hasKey (updVal R u.str (fun t => t.erase s)) u.str = true := by
          rw [hasKey_updVal]; exact hk
        rw [unsubscribe_of_hasKey hk1, updVal_updVal]
        simp only [Finset.erase_idem]
        rw [if_neg he]
    · have hkf : hasKey R u.str = false := by simpa using hk
      rw [unsubscribe_of_not_hasKey hkf, unsubscribe_of_not_hasKey hkf]

theorem subscribe_unsubscribe_idempotent_witness :
    keysNodup [("res://a", ({1} : Finset Session))]
    ∧ subscribe (subscribe [("res://a", ({1} : Finset Session))] (Uri.plain "res://a") 2)
        (Uri.plain "res://a") 2
      = subscribe [("res://a", ({1} : Finset Session))] (Uri.plain "res://a") 2
    ∧ unsubscribe (unsubscribe [("res://a", ({1} : Finset Session))] (Uri.plain "res://a") 1)
        (Uri.plain "res://a") 1
      = unsubscribe [("res://a", ({1} : Finset Session))] (Uri.plain "res://a") 1 :=
  ⟨by decide,
    (subscribe_unsubscribe_idempotent [("res://a", ({1} : Finset Session))]
      (Uri.plain "res://a") 2 (by decide)).1,
    (subscribe_unsubscribe_idempotent [("res://a", ({1} : Finset Session))]
      (Uri.plain "res://a") 1 (by decide)).2⟩

/-- C10: subscribe/unsubscribe round trip.  On every dict state satisfying
the registry invariant (unique keys, no key bound to an empty set), if `s`
is not subscribed to `u` then subscribing and immediately unsubscribing
restores the exact prior state, with no residual entry for `u`. -/
theorem subscribe_then_unsubscribe_roundtrip (R : Registry) (u : Uri)
    (s : Session) (hn : keysNodup R) (hne : noEmpty R)
    (hs : s ∉ getD R u.str) :
    unsubscribe (subscribe R u s) u s = R := by
  by_cases hk : hasKey R u.str = true
  · rw [unsubscribe_of_hasKey (hasKey_subscribe_self R u s),
      subscribe_of_hasKey hk, updVal_updVal]
    have hupd : updVal R u.str (fun t => (insert s t).erase s) = R := by
      apply updVal_congr
      intro p hp hkey
      have hf := find?_eq_of_mem_of_nodup hn hp hkey
      have hsp : s ∉ p.2 := by rw [← getD_eq_of_find? hf]; exact hs
      exact Finset.erase_insert hsp
    rw [hupd, if_neg (getD_ne_empty_of_hasKey hne hk)]
  · have hkf : hasKey R u.str = false := by simpa using hk
    have hnomem : u.str ∉ R.map Prod.fst := fun hc => by
      rw [hasKey_iff.mpr hc] at hkf; cases hkf
    have hsub : subscribe R u s = R ++ [(u.str, ({s} : Finset Session))] := by
      simp only [subscribe]
      rw [if_neg hk, updVal_append, updVal_eq_self_of_not_mem hnomem]
      simp [updVal]
    rw [unsubscribe_of_hasKey (hasKey_subscribe_self R u s), hsub]
    have hupd : updVal (R ++ [(u.str, ({s} : Finset Session))]) u.str
        (fun t => t.erase s) = R ++ [(u.str, (∅ : Finset Session))] := by
      rw [updVal_append, updVal_eq_self_of_not_mem hnomem]
      simp [updVal]
    rw [hupd]
    have hgd : getD (R ++ [(u.str, (∅ : Finset Session))]) u.str = ∅ :=
      getD_append_singleton (find?_none_of_not_hasKey hkf)
    rw [if_pos hgd]
    exact delKey_append_singleton hnomem

theorem subscribe_then_unsubscribe_roundtrip_witness :
    keysNodup [("res://a", ({1} : Finset Session))]
    ∧ noEmpty [("res://a", ({1} : Finset Session))]
    ∧ (2 : Session) ∉ getD [("res://a", ({1} : Finset Session))] (Uri.plain "res://b").str
    ∧ unsubscribe (subscribe [("res://a", ({1} : Finset Session))] (Uri.plain "res://b") 2)
        (Uri.plain "res://b") 2
      = [("res://a", ({1} : Finset Session))] :=
  ⟨by decide, by decide, by decide,
    subscribe_then_unsubscribe_roundtrip [("res://a", ({1} : Finset Session))]
      (Uri.plain "res://b") 2 (by decide) (by decide) (by decide)⟩

end Subscriptions
